import Mathlib

/-!
Verification of the PhantomMask derivation-and-signing core.

The core (`src/core`) exposes three operations built on the bs58 base58
codec and the @noble ed25519 / HMAC-SHA512 primitives:

* `deriveAppIdentity masterPrivateKey appId` — HMAC-SHA512 based,
  domain-separated per-app key derivation;
* `signMessage derivedPrivateKey message` — ed25519 signing, returning the
  signature together with the re-derived public key;
* `verifySignature signature message publicKey` — total boolean
  verification.

The base58 codec is embedded concretely (the base-x big-integer algorithm
used by the bs58 package, Bitcoin alphabet).  The external @noble
cryptographic primitives (HMAC-SHA512, ed25519 key derivation, signing and
verification) are modelled as a `CryptoPrims` record of pure functions on
byte lists; theorems that depend on a library contract (output lengths,
sign/verify completeness) take that contract as an explicit hypothesis.
Bytes are `Nat` values below 256; fallible operations return `Option` /
`Except`.
-/

/-- The Bitcoin base58 alphabet used by the bs58 package. -/
def B58_ALPHABET : List Char :=
  "123456789ABCDEFGHJKLMNPQRSTUVWXYZabcdefghijkmnopqrstuvwxyz".toList

/-- Position of a character in the base58 alphabet; `none` for a character
outside the alphabet (bs58 throws `Non-base58 character` there). -/
def b58CharIndex (c : Char) : Option Nat :=
  B58_ALPHABET.findIdx? (fun x => x == c)

/-- Convert every character of a base58 string to its alphabet index;
fails if any character is outside the alphabet. -/
def b58ToDigits : List Char → Option (List Nat)
  | [] => some []
  | c :: cs =>
    match b58CharIndex c, b58ToDigits cs with
    | some d, some ds => some (d :: ds)
    | _, _ => none

/-- Number of leading zero entries of a list of digits (leading `'1'`
characters on the string side, leading zero bytes on the byte side). -/
def countLeadingZeros : List Nat → Nat
  | [] => 0
  | d :: ds => if d = 0 then countLeadingZeros ds + 1 else 0

/-- Value of a little-endian digit list in the given base. -/
def leToN (base : Nat) : List Nat → Nat
  | [] => 0
  | d :: ds => d + base * leToN base ds

/-- Big-endian accumulation of a digit list, as performed by the base-x
decode / encode loops. -/
def beToNat (base : Nat) (l : List Nat) : Nat :=
  l.foldl (fun acc d => acc * base + d) 0

/-- Little-endian digits of `n` in the given base, with an explicit fuel
bound on the number of digits; most significant digit last and nonzero. -/
def genToLE (base fuel n : Nat) : List Nat :=
  match fuel with
  | 0 => []
  | f + 1 => if n = 0 then [] else n % base :: genToLE base f (n / base)

/-- bs58 decode (the base-x algorithm): fail on a character outside the
alphabet, otherwise translate leading `'1'`s to zero bytes and the
remaining big integer to big-endian bytes. -/
def bs58decode (s : String) : Option (List Nat) :=
  match b58ToDigits s.toList with
  | none => none
  | some ds =>
    some (List.replicate (countLeadingZeros ds) 0 ++
      (genToLE 256 ds.length (beToNat 58 ds)).reverse)

/-- bs58 encode (the base-x algorithm): leading zero bytes become `'1'`s,
the remaining big integer is written in base58 digits. -/
def bs58encode (l : List Nat) : String :=
  String.mk (List.replicate (countLeadingZeros l) '1' ++
    ((genToLE 58 (2 * l.length) (beToNat 256 l)).reverse.map
      (fun d => B58_ALPHABET.getD d '?')))

/-- UTF-8 bytes of a string, as produced by `TextEncoder().encode`. -/
def utf8Bytes (s : String) : List Nat :=
  s.toUTF8.data.toList.map (fun b => b.toNat)

/-- Errors thrown by the core (`src/core`).  `bs58.decode` throws its own
`Non-base58 character` error; the core itself throws
`... must be 32 bytes, got N` for a wrong-length decoded key. -/
inductive CoreError where
  | nonBase58Character : CoreError
  | invalidKeyLength (got : Nat) : CoreError
deriving DecidableEq, Repr

/-- Result of `deriveAppIdentity`: base58-encoded derived key pair. -/
structure Identity where
  privateKey : String
  publicKey : String
deriving DecidableEq, Repr

/-- Result of `signMessage`: base58-encoded signature and public key. -/
structure SignResult where
  signature : String
  publicKey : String
deriving DecidableEq, Repr

/-- The external cryptographic primitives used by the core: HMAC-SHA512
from `@noble/hashes` and the ed25519 operations of `@noble/ed25519` (as
configured in `src/core/noble.ts`).  All operate on byte lists; argument
orders follow the library (`hmac(sha512, key, msg)`, `ed.sign(msg, priv)`,
`ed.verify(sig, msg, pub)`). -/
structure CryptoPrims where
  hmacSha512 : List Nat → List Nat → List Nat
  getPublicKey : List Nat → List Nat
  sign : List Nat → List Nat → List Nat
  verify : List Nat → List Nat → List Nat → Bool

/-- Domain separator for app identity derivation (`src/core/derive.ts`). -/
def DOMAIN_SEPARATOR : String := "PhantomMask-v1-app:"

/-- `deriveAppIdentity` from `src/core/derive.ts`: decode the base58 master
key, require 32 bytes, HMAC-SHA512 the domain-separated message with the
master key, take the first 32 bytes as the derived private key, derive the
public key, and base58-encode both. -/
def deriveAppIdentity (P : CryptoPrims) (masterPrivateKey : String)
    (appId : String) : Except CoreError Identity :=
  match bs58decode masterPrivateKey with
  | none => .error .nonBase58Character
  | some masterKeyBytes =>
    if masterKeyBytes.length = 32 then
      let messageBytes := utf8Bytes (DOMAIN_SEPARATOR ++ appId)
      let hmacOutput := P.hmacSha512 masterKeyBytes messageBytes
      let derivedPrivateKey := hmacOutput.take 32
      let derivedPublicKey := P.getPublicKey derivedPrivateKey
      .ok { privateKey := bs58encode derivedPrivateKey
            publicKey := bs58encode derivedPublicKey }
    else
      .error (.invalidKeyLength masterKeyBytes.length)

/-- `signMessage` from `src/core/sign.ts`: decode the base58 private key,
require 32 bytes, re-derive the public key, sign the UTF-8 message bytes,
and return signature and public key base58-encoded. -/
def signMessage (P : CryptoPrims) (derivedPrivateKey : String)
    (message : String) : Except CoreError SignResult :=
  match bs58decode derivedPrivateKey with
  | none => .error .nonBase58Character
  | some privateKeyBytes =>
    if privateKeyBytes.length = 32 then
      let publicKeyBytes := P.getPublicKey privateKeyBytes
      let messageBytes := utf8Bytes message
      let signatureBytes := P.sign messageBytes privateKeyBytes
      .ok { signature := bs58encode signatureBytes
            publicKey := bs58encode publicKeyBytes }
    else
      .error (.invalidKeyLength privateKeyBytes.length)

/-- `verifySignature` from `src/core/sign.ts`: decode signature and public
key, check lengths 64 and 32, then verify; every failure on the way
(including a bad decode) is absorbed into `false` by the `try/catch`. -/
def verifySignature (P : CryptoPrims) (signature : String)
    (message : String) (publicKey : String) : Bool :=
  match bs58decode signature, bs58decode publicKey with
  | some signatureBytes, some publicKeyBytes =>
    if signatureBytes.length = 64 then
      if publicKeyBytes.length = 32 then
        P.verify signatureBytes (utf8Bytes message) publicKeyBytes
      else false
    else false
  | _, _ => false

/-- Concrete stand-in for the external primitives, used to evaluate the
embedding at concrete inputs.  `verify` accepts exactly the values that
`sign` and `getPublicKey` produce, so the ed25519 completeness contract
holds for it. -/
def testPrims : CryptoPrims where
  hmacSha512 := fun _ _ => List.replicate 64 1
  getPublicKey := fun _ => List.replicate 32 2
  sign := fun _ _ => List.replicate 64 3
  verify := fun s _ p => s == List.replicate 64 3 && p == List.replicate 32 2

/-! ### Base58 round-trip infrastructure -/

theorem genToLE_zero (base fuel : Nat) : genToLE base fuel 0 = [] := by
  cases fuel <;> simp [genToLE]

theorem genToLE_mem_lt (base fuel n : Nat) (hb : 0 < base) :
    ∀ d ∈ genToLE base fuel n, d < base := by
  induction fuel generalizing n with
  | zero => simp [genToLE]
  | succ f ih =>
    intro d hd
    simp only [genToLE] at hd
    by_cases hn : n = 0
    · simp [hn] at hd
    · simp only [if_neg hn, List.mem_cons] at hd
      rcases hd with h | h
      · exact h ▸ Nat.mod_lt _ hb
      · exact ih _ d h

theorem leToN_genToLE (base fuel n : Nat) (hb : 2 ≤ base)
    (h : n < base ^ fuel) : leToN base (genToLE base fuel n) = n := by
  induction fuel generalizing n with
  | zero =>
    simp only [pow_zero, Nat.lt_one_iff] at h
    simp [genToLE, leToN, h]
  | succ f ih =>
    by_cases hn : n = 0
    · simp [genToLE, hn, leToN]
    · have hbpos : 0 < base := by omega
      have hdiv : n / base < base ^ f := by
        rw [Nat.div_lt_iff_lt_mul hbpos]
        calc n < base ^ (f + 1) := h
          _ = base ^ f * base := by ring
      simp only [genToLE, if_neg hn, leToN, ih _ hdiv]
      exact Nat.mod_add_div n base

theorem leToN_lt (base : Nat) (l : List Nat) (h : ∀ d ∈ l, d < base) :
    leToN base l < base ^ l.length := by
  induction l with
  | nil => simp [leToN]
  | cons d ds ih =>
    have hd : d < base := h d (List.mem_cons_self d ds)
    have hds := ih (fun x hx => h x (List.mem_cons_of_mem d hx))
    simp only [leToN, List.length_cons, pow_succ]
    calc d + base * leToN base ds
        < base + base * leToN base ds := by omega
      _ = base * (leToN base ds + 1) := by ring
      _ ≤ base * (base ^ ds.length) := by
          exact Nat.mul_le_mul_left base hds
      _ = base ^ ds.length * base := by ring

theorem leToN_eq_zero (base : Nat) (hb : 0 < base) (l : List Nat)
    (h : leToN base l = 0) : ∀ d ∈ l, d = 0 := by
  induction l with
  | nil => simp
  | cons d ds ih =>
    simp only [leToN] at h
    have hd : d = 0 := by omega
    have hds : leToN base ds = 0 := by
      rcases Nat.mul_eq_zero.mp (by omega : base * leToN base ds = 0) with h1 | h1
      · omega
      · exact h1
    intro x hx
    rcases List.mem_cons.mp hx with rfl | hx
    · exact hd
    · exact ih hds x hx

theorem leToN_ge (base : Nat) (hb : 2 ≤ base) (l : List Nat) (d : Nat)
    (hlast : l.getLast? = some d) (hd : d ≠ 0) :
    base ^ (l.length - 1) ≤ leToN base l := by
  induction l with
  | nil => simp at hlast
  | cons x xs ih =>
    cases xs with
    | nil =>
      simp only [List.getLast?_singleton, Option.some.injEq] at hlast
      simp only [leToN, List.length_singleton, Nat.sub_self, pow_zero]
      omega
    | cons y ys =>
      have hlast' : (y :: ys).getLast? = some d := by
        rw [← hlast]; exact List.getLast?_cons_cons.symm
      have := ih hlast'
      simp only [leToN, List.length_cons, Nat.add_sub_cancel] at this ⊢
      calc base ^ (ys.length + 1)
          = base * base ^ ys.length := by ring
        _ ≤ base * leToN base (y :: ys) := by
            exact Nat.mul_le_mul_left base (by simpa using this)
        _ ≤ x + base * leToN base (y :: ys) := by omega

theorem genToLE_leToN (base : Nat) (hb : 2 ≤ base) (r : List Nat) :
    ∀ fuel, (∀ d ∈ r, d < base) →
    (∀ d, r.getLast? = some d → d ≠ 0) → r.length ≤ fuel →
    genToLE base fuel (leToN base r) = r := by
  induction r with
  | nil => intro fuel _ _ _; simp [leToN, genToLE_zero]
  | cons d rest ih =>
    intro fuel hmem hlast hfuel
    have hbpos : 0 < base := by omega
    have hd : d < base := hmem d (List.mem_cons_self d rest)
    have hv : d + base * leToN base rest ≠ 0 := by
      intro h0
      have hd0 : d = 0 := by omega
      have hw0 : leToN base rest = 0 := by
        rcases Nat.mul_eq_zero.mp (by omega : base * leToN base rest = 0) with h1 | h1
        · omega
        · exact h1
      cases rest with
      | nil =>
        exact hlast d (by simp) hd0
      | cons y ys =>
        have hall := leToN_eq_zero base hbpos _ hw0
        have hL : ∃ e, (y :: ys).getLast? = some e := by
          cases h : (y :: ys).getLast? with
          | none => simp at h
          | some e => exact ⟨e, rfl⟩
        obtain ⟨e, he⟩ := hL
        have hmm : e ∈ y :: ys := List.mem_of_getLast?_eq_some he
        exact hlast e (by rw [List.getLast?_cons_cons, he]) (hall e hmm)
    obtain ⟨f, rfl⟩ : ∃ f, fuel = f + 1 := by
      cases fuel with
      | zero => simp at hfuel
      | succ f => exact ⟨f, rfl⟩
    simp only [leToN, genToLE, if_neg hv]
    have hmod : (d + base * leToN base rest) % base = d := by
      rw [Nat.add_mul_mod_self_left, Nat.mod_eq_of_lt hd]
    have hdiv : (d + base * leToN base rest) / base = leToN base rest := by
      rw [Nat.add_mul_div_left _ _ hbpos, Nat.div_eq_of_lt hd, Nat.zero_add]
    rw [hmod, hdiv]
    congr 1
    cases rest with
    | nil => simp [leToN, genToLE_zero]
    | cons y ys =>
      refine ih f (fun x hx => hmem x (List.mem_cons_of_mem d hx)) ?_ ?_
      · intro e he
        exact hlast e (by rw [List.getLast?_cons_cons]; exact he)
      · simp only [List.length_cons] at hfuel ⊢; omega

theorem beToNat_reverse (base : Nat) (r : List Nat) :
    beToNat base r.reverse = leToN base r := by
  induction r with
  | nil => simp [beToNat, leToN]
  | cons d rest ih =>
    simp only [List.reverse_cons, beToNat, List.foldl_append, List.foldl_cons,
      List.foldl_nil, leToN]
    simp only [beToNat] at ih
    rw [ih]; ring

theorem beToNat_replicate_zero (base k : Nat) :
    beToNat base (List.replicate k 0) = 0 := by
  induction k with
  | zero => simp [beToNat]
  | succ m ih =>
    simp only [List.replicate_succ, beToNat, List.foldl_cons] at ih ⊢
    simpa using ih

theorem beToNat_replicate_zero_append (base k : Nat) (l : List Nat) :
    beToNat base (List.replicate k 0 ++ l) = beToNat base l := by
  simp only [beToNat, List.foldl_append]
  have h := beToNat_replicate_zero base k
  simp only [beToNat] at h
  rw [h]

theorem b58CharIndex_alphabet :
    ∀ d < 58, b58CharIndex (B58_ALPHABET.getD d '?') = some d := by decide

theorem b58CharIndex_one : b58CharIndex '1' = some 0 := by decide

theorem b58ToDigits_map_alphabet (ds : List Nat) (h : ∀ d ∈ ds, d < 58) :
    b58ToDigits (ds.map (fun d => B58_ALPHABET.getD d '?')) = some ds := by
  induction ds with
  | nil => rfl
  | cons d rest ih =>
    have hd := b58CharIndex_alphabet d (h d (List.mem_cons_self d rest))
    have hrest := ih (fun x hx => h x (List.mem_cons_of_mem d hx))
    simp only [List.map_cons, b58ToDigits, hd, hrest]

theorem b58ToDigits_replicate_one_append (k : Nat) (cs : List Char) :
    b58ToDigits (List.replicate k '1' ++ cs) =
      (b58ToDigits cs).map (fun ds => List.replicate k 0 ++ ds) := by
  induction k with
  | zero =>
    simp only [List.replicate_zero, List.nil_append, List.replicate_zero]
    cases b58ToDigits cs <;> simp
  | succ m ih =>
    rw [List.replicate_succ, List.cons_append, b58ToDigits, b58CharIndex_one, ih]
    cases b58ToDigits cs <;> rfl

theorem countLeadingZeros_replicate (k : Nat) :
    countLeadingZeros (List.replicate k 0) = k := by
  induction k with
  | zero => rfl
  | succ m ih => simp [List.replicate_succ, countLeadingZeros, ih]

theorem countLeadingZeros_replicate_append (k : Nat) (ds : List Nat)
    (h : ∀ d, ds.head? = some d → d ≠ 0) :
    countLeadingZeros (List.replicate k 0 ++ ds) = k := by
  induction k with
  | zero =>
    simp only [List.replicate_zero, List.nil_append]
    cases ds with
    | nil => rfl
    | cons d rest =>
      have := h d rfl
      simp [countLeadingZeros, this]
  | succ m ih =>
    simp [List.replicate_succ, countLeadingZeros, ih]

theorem countLeadingZeros_take (l : List Nat) :
    l.take (countLeadingZeros l) = List.replicate (countLeadingZeros l) 0 := by
  induction l with
  | nil => simp [countLeadingZeros]
  | cons d rest ih =>
    by_cases hd : d = 0
    · simp [countLeadingZeros, hd, List.replicate_succ, ih]
    · simp [countLeadingZeros, hd]

theorem countLeadingZeros_drop_head (l : List Nat) :
    ∀ d, (l.drop (countLeadingZeros l)).head? = some d → d ≠ 0 := by
  induction l with
  | nil => simp [countLeadingZeros]
  | cons x rest ih =>
    intro d hd
    by_cases hx : x = 0
    · simp only [countLeadingZeros, if_pos hx, List.drop_succ_cons] at hd
      exact ih d hd
    · simp only [countLeadingZeros, if_neg hx, List.drop_zero,
        List.head?_cons, Option.some.injEq] at hd
      exact hd ▸ hx

theorem genToLE_getLast_ne_zero (base : Nat) (hb : 2 ≤ base) :
    ∀ fuel m, m ≠ 0 → m < base ^ fuel →
    ∀ e, (genToLE base fuel m).getLast? = some e → e ≠ 0 := by
  intro fuel
  induction fuel with
  | zero =>
    intro m hm hlt e _
    simp only [pow_zero, Nat.lt_one_iff] at hlt
    exact absurd hlt hm
  | succ f ih =>
    intro m hm hlt e he
    have hbpos : 0 < base := by omega
    simp only [genToLE, if_neg hm] at he
    by_cases hq : m / base = 0
    · rw [hq, genToLE_zero, List.getLast?_singleton, Option.some.injEq] at he
      have hmb : m < base := (Nat.div_eq_zero_iff hbpos).mp hq
      rw [← he, Nat.mod_eq_of_lt hmb]
      exact hm
    · have hqlt : m / base < base ^ f := by
        rw [Nat.div_lt_iff_lt_mul hbpos]
        calc m < base ^ (f + 1) := hlt
          _ = base ^ f * base := by ring
      obtain ⟨g, rfl⟩ : ∃ g, f = g + 1 := by
        cases hf2 : f with
        | zero =>
          exfalso
          rw [hf2, pow_zero, Nat.lt_one_iff] at hqlt
          exact hq hqlt
        | succ g => exact ⟨g, rfl⟩
      have hcons : genToLE base (g + 1) (m / base) =
          (m / base) % base :: genToLE base g (m / base / base) := by
        simp [genToLE, hq]
      rw [hcons, List.getLast?_cons_cons, ← hcons] at he
      exact ih (m / base) hq hqlt e he

/-- The base-x round trip: decoding the encoding of any byte list returns
exactly that byte list. -/
theorem bs58_roundTrip (l : List Nat) (h : ∀ b ∈ l, b < 256) :
    bs58decode (bs58encode l) = some l := by
  have h58 : (2 : Nat) ≤ 58 := by omega
  set zs := countLeadingZeros l with hzs
  set n := beToNat 256 l with hn
  set le58 := genToLE 58 (2 * l.length) n with hle58
  have hnrev : n = leToN 256 l.reverse := by
    rw [hn, ← List.reverse_reverse l, beToNat_reverse, List.reverse_reverse]
  have hnlt : n < 256 ^ l.length := by
    rw [hnrev]
    have := leToN_lt 256 l.reverse (fun d hd => h d (List.mem_reverse.mp hd))
    simpa using this
  have hn58 : n < 58 ^ (2 * l.length) := by
    calc n < 256 ^ l.length := hnlt
      _ ≤ (58 ^ 2) ^ l.length := Nat.pow_le_pow_left (by omega) _
      _ = 58 ^ (2 * l.length) := by rw [← pow_mul, Nat.mul_comm]
  have hle58mem : ∀ d ∈ le58, d < 58 := genToLE_mem_lt 58 _ n (by omega)
  have hle58val : leToN 58 le58 = n := leToN_genToLE 58 _ n h58 hn58
  have hdig : b58ToDigits (bs58encode l).toList =
      some (List.replicate zs 0 ++ le58.reverse) := by
    have henc : (bs58encode l).toList =
        List.replicate zs '1' ++
          (le58.reverse.map (fun d => B58_ALPHABET.getD d '?')) := rfl
    rw [henc, b58ToDigits_replicate_one_append,
      b58ToDigits_map_alphabet le58.reverse
        (fun d hd => hle58mem d (List.mem_reverse.mp hd))]
    rfl
  rw [bs58decode.eq_def, hdig]
  simp only [Option.some.injEq]
  by_cases hzero : n = 0
  -- all-zero input: the encoding is just leading '1' characters
  · have hall : ∀ b ∈ l, b = 0 := by
      intro b hb
      have hz : leToN 256 l.reverse = 0 := by omega
      exact leToN_eq_zero 256 (by omega) l.reverse hz b (List.mem_reverse.mpr hb)
    have hlrep : l = List.replicate l.length 0 := List.eq_replicate_of_mem hall
    have hzslen : zs = l.length := by
      rw [hzs]
      conv_lhs => rw [hlrep]
      rw [countLeadingZeros_replicate]
    have hle58nil : le58 = [] := by rw [hle58, hzero, genToLE_zero]
    rw [hle58nil]
    simp only [List.reverse_nil, List.append_nil, countLeadingZeros_replicate,
      beToNat_replicate_zero, genToLE_zero, List.reverse_nil, List.append_nil]
    rw [hzslen]
    exact hlrep.symm
  -- nonzero big-integer part
  · have hlne : l ≠ [] := by
      intro hnil
      rw [hn, hnil] at hzero
      exact hzero rfl
    have hle58ne : le58 ≠ [] := by
      rw [hle58]
      obtain ⟨f, hf⟩ : ∃ f, 2 * l.length = f + 1 := by
        have := List.length_pos_of_ne_nil hlne
        exact ⟨2 * l.length - 1, by omega⟩
      rw [hf]
      simp [genToLE, hzero]
    have hhead : ∀ d, le58.reverse.head? = some d → d ≠ 0 := by
      intro d hd
      rw [List.head?_reverse] at hd
      exact genToLE_getLast_ne_zero 58 h58 (2 * l.length) n hzero hn58 d hd
    -- decompose the input into leading zeros and significant bytes
    set l' := l.drop zs with hl'
    have hsplit : List.replicate zs 0 ++ l' = l := by
      rw [hl', hzs, ← countLeadingZeros_take]
      exact List.take_append_drop _ l
    have hl'ne : l' ≠ [] := by
      intro hnil
      rw [hnil, List.append_nil] at hsplit
      rw [hn, ← hsplit, beToNat_replicate_zero] at hzero
      exact hzero rfl
    have hl'head : ∀ d, l'.head? = some d → d ≠ 0 :=
      fun d hd => countLeadingZeros_drop_head l d hd
    have hnl' : n = leToN 256 l'.reverse := by
      rw [hn, ← hsplit, beToNat_replicate_zero_append,
        ← List.reverse_reverse l', beToNat_reverse, List.reverse_reverse]
    have hl'mem : ∀ b ∈ l'.reverse, b < 256 := by
      intro b hb
      exact h b (List.mem_of_mem_drop (List.mem_reverse.mp hb))
    have hl'last : ∀ e, l'.reverse.getLast? = some e → e ≠ 0 := by
      intro e he
      rw [List.getLast?_reverse] at he
      exact hl'head e he
    -- digit-count comparison: at least as many base58 digits as bytes
    have hlen : l'.length ≤ zs + le58.length := by
      have hnub : n < 58 ^ le58.length := by
        rw [← hle58val]
        exact leToN_lt 58 le58 hle58mem
      have hnlb : 256 ^ (l'.length - 1) ≤ n := by
        obtain ⟨d0, hd0⟩ : ∃ d0, l'.head? = some d0 := by
          cases hh : l'.head? with
          | none => exact absurd (List.head?_eq_none_iff.mp hh) hl'ne
          | some d0 => exact ⟨d0, rfl⟩
        have : 256 ^ (l'.reverse.length - 1) ≤ leToN 256 l'.reverse := by
          refine leToN_ge 256 (by omega) l'.reverse d0 ?_ (hl'head d0 hd0)
          rw [List.getLast?_reverse]
          exact hd0
        rw [List.length_reverse] at this
        omega
      by_contra hcon
      push_neg at hcon
      have h1 : le58.length ≤ l'.length - 1 := by omega
      have : (58 : Nat) ^ le58.length ≤ 58 ^ (l'.length - 1) :=
        Nat.pow_le_pow_right (by omega) h1
      have h2 : (58 : Nat) ^ (l'.length - 1) ≤ 256 ^ (l'.length - 1) :=
        Nat.pow_le_pow_left (by omega) _
      omega
    -- reconstruct the significant bytes
    have hrec : genToLE 256 (List.replicate zs 0 ++ le58.reverse).length
        (beToNat 58 (List.replicate zs 0 ++ le58.reverse)) = l'.reverse := by
      have hval : beToNat 58 (List.replicate zs 0 ++ le58.reverse) = n := by
        rw [beToNat_replicate_zero_append, beToNat_reverse, hle58val]
      rw [hval, hnl']
      refine genToLE_leToN 256 (by omega) l'.reverse _ hl'mem hl'last ?_
      simp only [List.length_append, List.length_replicate, List.length_reverse]
      omega
    rw [hrec,
      countLeadingZeros_replicate_append zs le58.reverse hhead,
      List.reverse_reverse]
    exact hsplit

example : bs58decode "11" = some [0, 0] := by decide
example : bs58decode "z1" = some [12, 234] := by decide
example : bs58decode "0" = none := by decide
example : bs58encode [0, 1] = "12" := by decide
example : bs58decode (bs58encode [0, 12, 234, 0]) = some [0, 12, 234, 0] := by decide
example : utf8Bytes "ab" = [97, 98] := by decide
example :
    deriveAppIdentity testPrims
      "11111111111111111111111111111111" "x" =
    .ok { privateKey := bs58encode (List.replicate 32 1)
          publicKey := bs58encode (List.replicate 32 2) } := by rfl
example :
    signMessage testPrims "1" "x" = .error (.invalidKeyLength 1) := by rfl

/-! ### Inversion lemmas for the core operations -/

theorem deriveAppIdentity_ok_inv (P : CryptoPrims) (mk appId : String)
    (id : Identity) (h : deriveAppIdentity P mk appId = .ok id) :
    ∃ k, bs58decode mk = some k ∧ k.length = 32 ∧
      id = { privateKey := bs58encode
               ((P.hmacSha512 k (utf8Bytes (DOMAIN_SEPARATOR ++ appId))).take 32)
             publicKey := bs58encode (P.getPublicKey
               ((P.hmacSha512 k (utf8Bytes (DOMAIN_SEPARATOR ++ appId))).take 32)) } := by
  rw [deriveAppIdentity.eq_def] at h
  split at h
  · exact absurd h (by simp)
  · rename_i k' hdec'
    split at h
    · rename_i hlen'
      simp only [Except.ok.injEq] at h
      exact ⟨k', hdec', hlen', h.symm⟩
    · exact absurd h (by simp)

theorem signMessage_ok_inv (P : CryptoPrims) (sk msg : String)
    (res : SignResult) (h : signMessage P sk msg = .ok res) :
    ∃ k, bs58decode sk = some k ∧ k.length = 32 ∧
      res = { signature := bs58encode (P.sign (utf8Bytes msg) k)
              publicKey := bs58encode (P.getPublicKey k) } := by
  rw [signMessage.eq_def] at h
  split at h
  · exact absurd h (by simp)
  · rename_i k' hdec'
    split at h
    · rename_i hlen'
      simp only [Except.ok.injEq] at h
      exact ⟨k', hdec', hlen', h.symm⟩
    · exact absurd h (by simp)

/-! ### Claim theorems -/

/-- Claim C1: for every base58 string decoding to exactly 32 bytes as the
master key and every appId, `deriveAppIdentity` returns as private key the
base58 encoding of the first 32 bytes of HMAC-SHA512 keyed with the master
key over the UTF-8 bytes of the literal prefix `"PhantomMask-v1-app:"`
followed by appId (the other 32 HMAC bytes are dropped by `take 32`), and
as public key the base58 encoding of the ed25519 public key of that
32-byte derived private key. -/
theorem deriveAppIdentity_spec (P : CryptoPrims) (masterPrivateKey : String)
    (appId : String) (k : List Nat)
    (hdec : bs58decode masterPrivateKey = some k) (hlen : k.length = 32) :
    deriveAppIdentity P masterPrivateKey appId =
      .ok { privateKey := bs58encode
              ((P.hmacSha512 k
                (utf8Bytes ("PhantomMask-v1-app:" ++ appId))).take 32)
            publicKey := bs58encode (P.getPublicKey
              ((P.hmacSha512 k
                (utf8Bytes ("PhantomMask-v1-app:" ++ appId))).take 32)) } := by
  rw [deriveAppIdentity.eq_def, hdec]
  simp only [hlen, if_true, DOMAIN_SEPARATOR]

theorem deriveAppIdentity_spec_witness :
    bs58decode "11111111111111111111111111111111" =
      some (List.replicate 32 0) ∧
    (List.replicate 32 0).length = 32 ∧
    deriveAppIdentity testPrims "11111111111111111111111111111111" "app" =
      .ok { privateKey := bs58encode
              ((testPrims.hmacSha512 (List.replicate 32 0)
                (utf8Bytes ("PhantomMask-v1-app:" ++ "app"))).take 32)
            publicKey := bs58encode (testPrims.getPublicKey
              ((testPrims.hmacSha512 (List.replicate 32 0)
                (utf8Bytes ("PhantomMask-v1-app:" ++ "app"))).take 32)) } :=
  ⟨by decide, by decide,
    deriveAppIdentity_spec testPrims "11111111111111111111111111111111"
      "app" (List.replicate 32 0) (by decide) (by decide)⟩

/-- Claim C2: `deriveAppIdentity` and `signMessage` are deterministic — two
calls with identical inputs yield identical results.  In this embedding
both operations are pure functions of their explicit inputs (the source
threads no randomness and reads no state: the only nondeterministic
ed25519 API is never called, and RFC 8032 signing is deterministic), so
determinism holds definitionally. -/
theorem derive_sign_deterministic (P : CryptoPrims)
    (mk appId sk msg : String)
    (r1 r2 : Except CoreError Identity) (s1 s2 : Except CoreError SignResult)
    (h1 : deriveAppIdentity P mk appId = r1)
    (h2 : deriveAppIdentity P mk appId = r2)
    (h3 : signMessage P sk msg = s1) (h4 : signMessage P sk msg = s2) :
    r1 = r2 ∧ s1 = s2 :=
  ⟨h1.symm.trans h2, h3.symm.trans h4⟩

theorem derive_sign_deterministic_witness :
    deriveAppIdentity testPrims "1" "a" = .error (.invalidKeyLength 1) ∧
    signMessage testPrims "1" "m" = .error (.invalidKeyLength 1) ∧
    (Except.error (CoreError.invalidKeyLength 1) =
      (.error (.invalidKeyLength 1) : Except CoreError Identity)) ∧
    (Except.error (CoreError.invalidKeyLength 1) =
      (.error (.invalidKeyLength 1) : Except CoreError SignResult)) :=
  ⟨by rfl, by rfl,
    (derive_sign_deterministic testPrims "1" "a" "1" "m"
      (.error (.invalidKeyLength 1)) (.error (.invalidKeyLength 1))
      (.error (.invalidKeyLength 1)) (.error (.invalidKeyLength 1))
      (by rfl) (by rfl) (by rfl) (by rfl)).1,
    (derive_sign_deterministic testPrims "1" "a" "1" "m"
      (.error (.invalidKeyLength 1)) (.error (.invalidKeyLength 1))
      (.error (.invalidKeyLength 1)) (.error (.invalidKeyLength 1))
      (by rfl) (by rfl) (by rfl) (by rfl)).2⟩

/-- Claim C5: called with a key that decodes to any byte length other than
32, both `deriveAppIdentity` and `signMessage` fail with the
`InvalidKeyLength` error carrying that length.  The conclusion holds for
every `CryptoPrims` instance and names none of its fields, so the error is
raised before any cryptographic primitive is consulted. -/
theorem length_validation (P : CryptoPrims) (keyStr appId msg : String)
    (k : List Nat) (hdec : bs58decode keyStr = some k)
    (hlen : k.length ≠ 32) :
    deriveAppIdentity P keyStr appId = .error (.invalidKeyLength k.length) ∧
    signMessage P keyStr msg = .error (.invalidKeyLength k.length) := by
  constructor
  · rw [deriveAppIdentity.eq_def, hdec]
    simp only [if_neg hlen]
  · rw [signMessage.eq_def, hdec]
    simp only [if_neg hlen]

theorem length_validation_witness :
    bs58decode "1" = some [0] ∧ [0].length ≠ 32 ∧
    deriveAppIdentity testPrims "1" "a" = .error (.invalidKeyLength 1) ∧
    signMessage testPrims "1" "m" = .error (.invalidKeyLength 1) :=
  ⟨by decide, by decide,
    (length_validation testPrims "1" "a" "m" [0] (by decide) (by decide)).1,
    (length_validation testPrims "1" "a" "m" [0] (by decide) (by decide)).2⟩

/-- Claim C4: `verifySignature` is a total boolean predicate (it returns a
`Bool` for every input triple, absorbing malformed base58, wrong-length
signatures and wrong-length public keys into `false`), and it returns
`true` exactly when both inputs decode, the decoded signature has 64
bytes, the decoded public key has 32 bytes, and the ed25519 verification
primitive accepts the triple. -/
theorem verifySignature_total_iff (P : CryptoPrims)
    (sig msg pk : String) :
    verifySignature P sig msg pk = true ↔
      ∃ sigBytes pubBytes,
        bs58decode sig = some sigBytes ∧ bs58decode pk = some pubBytes ∧
        sigBytes.length = 64 ∧ pubBytes.length = 32 ∧
        P.verify sigBytes (utf8Bytes msg) pubBytes = true := by
  constructor
  · intro h
    rw [verifySignature.eq_def] at h
    split at h
    · rename_i sigBytes pubBytes hs hp
      split at h
      · rename_i h64
        split at h
        · rename_i h32
          exact ⟨sigBytes, pubBytes, hs, hp, h64, h32, h⟩
        · exact absurd h (by simp)
      · exact absurd h (by simp)
    · exact absurd h (by simp)
  · rintro ⟨sigBytes, pubBytes, hs, hp, h64, h32, hv⟩
    rw [verifySignature.eq_def, hs, hp]
    simp only [h64, h32, if_true]
    exact hv

/-- Claim C3: round-trip signing.  Under the ed25519 / HMAC library
contract (fixed output lengths, byte-valued outputs, and RFC 8032
sign/verify completeness), for every key pair produced by
`deriveAppIdentity` and every message, the signature returned by
`signMessage` verifies against the message and the public key returned by
the same call. -/
theorem signMessage_verify_roundTrip (P : CryptoPrims)
    (hhmacLen : ∀ k m, (P.hmacSha512 k m).length = 64)
    (hhmacBytes : ∀ k m, ∀ b ∈ P.hmacSha512 k m, b < 256)
    (hpkLen : ∀ k, (P.getPublicKey k).length = 32)
    (hpkBytes : ∀ k, ∀ b ∈ P.getPublicKey k, b < 256)
    (hsigLen : ∀ m k, (P.sign m k).length = 64)
    (hsigBytes : ∀ m k, ∀ b ∈ P.sign m k, b < 256)
    (hcomplete : ∀ m k, P.verify (P.sign m k) m (P.getPublicKey k) = true)
    (masterPrivateKey appId msg : String) (id : Identity) (res : SignResult)
    (hder : deriveAppIdentity P masterPrivateKey appId = .ok id)
    (hsig : signMessage P id.privateKey msg = .ok res) :
    verifySignature P res.signature msg res.publicKey = true := by
  obtain ⟨k, hdec, hklen, hid⟩ :=
    deriveAppIdentity_ok_inv P masterPrivateKey appId id hder
  obtain ⟨dk', hdec', hdk'len, hres⟩ :=
    signMessage_ok_inv P id.privateKey msg res hsig
  set dk := (P.hmacSha512 k (utf8Bytes (DOMAIN_SEPARATOR ++ appId))).take 32
    with hdk
  have hpriv : id.privateKey = bs58encode dk := by rw [hid]
  have hdkbytes : ∀ b ∈ dk, b < 256 :=
    fun b hb => hhmacBytes k _ b (List.mem_of_mem_take hb)
  have hrt : bs58decode id.privateKey = some dk := by
    rw [hpriv]; exact bs58_roundTrip dk hdkbytes
  have hdkeq : dk' = dk := by
    rw [hrt] at hdec'
    exact (Option.some_inj.mp hdec').symm
  rw [hdkeq] at hres
  rw [hres]
  rw [verifySignature.eq_def]
  simp only
  rw [bs58_roundTrip (P.sign (utf8Bytes msg) dk)
        (fun b hb => hsigBytes (utf8Bytes msg) dk b hb),
      bs58_roundTrip (P.getPublicKey dk)
        (fun b hb => hpkBytes dk b hb)]
  simp only [hsigLen, hpkLen, if_true]
  exact hcomplete (utf8Bytes msg) dk

theorem signMessage_verify_roundTrip_witness :
    verifySignature testPrims (bs58encode (List.replicate 64 3)) "m"
      (bs58encode (List.replicate 32 2)) = true :=
  signMessage_verify_roundTrip testPrims
    (fun _ _ => rfl)
    (fun _ _ b hb => by rw [List.eq_of_mem_replicate hb]; omega)
    (fun _ => rfl)
    (fun _ b hb => by rw [List.eq_of_mem_replicate hb]; omega)
    (fun _ _ => rfl)
    (fun _ _ b hb => by rw [List.eq_of_mem_replicate hb]; omega)
    (fun _ _ => rfl)
    "11111111111111111111111111111111" "app" "m"
    { privateKey := bs58encode (List.replicate 32 1)
      publicKey := bs58encode (List.replicate 32 2) }
    { signature := bs58encode (List.replicate 64 3)
      publicKey := bs58encode (List.replicate 32 2) }
    (by rfl) (by rfl)

/-- Claim C6: for every base58 string `sk` that decodes to a 32-byte
private key — whether caller-supplied or derive-produced — and every
message, `signMessage` succeeds and returns, alongside the signature, the
public key re-derived from that decoded private key via ed25519
public-key derivation; consequently, whenever `sk` is the private key
that `deriveAppIdentity` returned, the public key returned by
`signMessage` equals the public key of that same derived identity. -/
theorem signMessage_rederives_publicKey (P : CryptoPrims)
    (hhmacBytes : ∀ k m, ∀ b ∈ P.hmacSha512 k m, b < 256)
    (sk msg : String) (k : List Nat)
    (hdec : bs58decode sk = some k) (hlen : k.length = 32) :
    signMessage P sk msg =
      .ok { signature := bs58encode (P.sign (utf8Bytes msg) k)
            publicKey := bs58encode (P.getPublicKey k) } ∧
    (∀ mk appId id, deriveAppIdentity P mk appId = .ok id →
      id.privateKey = sk →
      ∀ res, signMessage P sk msg = .ok res →
        res.publicKey = id.publicKey) := by
  have hsig : signMessage P sk msg =
      .ok { signature := bs58encode (P.sign (utf8Bytes msg) k)
            publicKey := bs58encode (P.getPublicKey k) } := by
    rw [signMessage.eq_def, hdec]
    simp only [hlen, if_true]
  refine ⟨hsig, ?_⟩
  intro mk appId id hder hpriv res hres
  obtain ⟨mkB, hmkdec, hmklen, hid⟩ :=
    deriveAppIdentity_ok_inv P mk appId id hder
  set dk := (P.hmacSha512 mkB (utf8Bytes (DOMAIN_SEPARATOR ++ appId))).take 32
    with hdk
  have hdkbytes : ∀ b ∈ dk, b < 256 :=
    fun b hb => hhmacBytes mkB _ b (List.mem_of_mem_take hb)
  have hske : sk = bs58encode dk := by rw [← hpriv, hid]
  have hrt : bs58decode sk = some dk := by
    rw [hske]; exact bs58_roundTrip dk hdkbytes
  have hkeq : k = dk := by
    rw [hrt] at hdec
    exact Option.some_inj.mp hdec.symm
  rw [hsig] at hres
  have hres' : res = { signature := bs58encode (P.sign (utf8Bytes msg) k)
                       publicKey := bs58encode (P.getPublicKey k) } :=
    (Except.ok.injEq _ _ ▸ hres).symm
  rw [hres', hid, hkeq]

theorem signMessage_rederives_publicKey_witness :
    bs58decode (bs58encode (List.replicate 32 1)) =
      some (List.replicate 32 1) ∧
    (List.replicate 32 1).length = 32 ∧
    signMessage testPrims (bs58encode (List.replicate 32 1)) "m" =
      .ok { signature := bs58encode (List.replicate 64 3)
            publicKey := bs58encode (List.replicate 32 2) } :=
  ⟨by rfl, by rfl,
    (signMessage_rederives_publicKey testPrims
      (fun _ _ b hb => by rw [List.eq_of_mem_replicate hb]; omega)
      (bs58encode (List.replicate 32 1)) "m" (List.replicate 32 1)
      (by rfl) (by rfl)).1⟩

/-- Claim C8 as stated is false: `deriveAppIdentity` has a second failure
mode.  On the master key `"0"` — whose character `'0'` is outside the
base58 alphabet, so the key does not decode at all — the function fails
with the bs58 decode error, not with `InvalidKeyLength`, refuting both
"fails with InvalidKeyLength" and "for every other input it succeeds". -/
theorem deriveAppIdentity_failure_modes_cex :
    deriveAppIdentity testPrims "0" "app" =
      .error CoreError.nonBase58Character ∧
    CoreError.nonBase58Character ≠ CoreError.invalidKeyLength 1 := by
  constructor
  · rfl
  · intro h; cases h

/-- Claim C8 (amended): `deriveAppIdentity` has exactly two failure modes —
the bs58 decode error when the master key contains a character outside the
base58 alphabet, and `InvalidKeyLength` when the key decodes to a length
other than 32 — and on every other input it succeeds with a complete
identity. -/
theorem deriveAppIdentity_failure_modes (P : CryptoPrims)
    (mk appId : String) :
    (bs58decode mk = none →
      deriveAppIdentity P mk appId = .error CoreError.nonBase58Character) ∧
    (∀ k, bs58decode mk = some k → k.length ≠ 32 →
      deriveAppIdentity P mk appId =
        .error (CoreError.invalidKeyLength k.length)) ∧
    (∀ k, bs58decode mk = some k → k.length = 32 →
      ∃ id, deriveAppIdentity P mk appId = .ok id) := by
  refine ⟨?_, ?_, ?_⟩
  · intro h
    rw [deriveAppIdentity.eq_def, h]
  · intro k h hlen
    rw [deriveAppIdentity.eq_def, h]
    simp only [if_neg hlen]
  · intro k h hlen
    refine ⟨{ privateKey := bs58encode
                ((P.hmacSha512 k
                  (utf8Bytes (DOMAIN_SEPARATOR ++ appId))).take 32)
              publicKey := bs58encode (P.getPublicKey
                ((P.hmacSha512 k
                  (utf8Bytes (DOMAIN_SEPARATOR ++ appId))).take 32)) }, ?_⟩
    rw [deriveAppIdentity.eq_def, h]
    simp only [hlen, if_true]

theorem deriveAppIdentity_failure_modes_witness :
    deriveAppIdentity testPrims "0" "a" =
      .error CoreError.nonBase58Character ∧
    deriveAppIdentity testPrims "1" "a" =
      .error (CoreError.invalidKeyLength 1) :=
  ⟨(deriveAppIdentity_failure_modes testPrims "0" "a").1 (by rfl),
   (deriveAppIdentity_failure_modes testPrims "1" "a").2.1 [0]
     (by rfl) (by decide)⟩

theorem b58ToDigits_eq_none (cs : List Char) (c : Char) (hc : c ∈ cs)
    (hbad : b58CharIndex c = none) : b58ToDigits cs = none := by
  induction cs with
  | nil => simp at hc
  | cons x xs ih =>
    rcases List.mem_cons.mp hc with rfl | hx
    · rw [b58ToDigits, hbad]
    · rw [b58ToDigits, ih hx]
      cases b58CharIndex x <;> rfl

/-- Claim C9: a key string containing a character outside the base58
alphabet makes both `deriveAppIdentity` and `signMessage` fail with the
bs58 decode error, which is a different error from the `InvalidKeyLength`
error raised for a wrong-length decoded key (distinct constructors of
`CoreError`). -/
theorem decode_error_distinct (P : CryptoPrims)
    (keyStr appId msg : String) (c : Char) (hc : c ∈ keyStr.toList)
    (hbad : b58CharIndex c = none) :
    deriveAppIdentity P keyStr appId =
      .error CoreError.nonBase58Character ∧
    signMessage P keyStr msg = .error CoreError.nonBase58Character ∧
    ∀ n, CoreError.nonBase58Character ≠ CoreError.invalidKeyLength n := by
  have hdec : bs58decode keyStr = none := by
    rw [bs58decode.eq_def, b58ToDigits_eq_none keyStr.toList c hc hbad]
  refine ⟨?_, ?_, ?_⟩
  · rw [deriveAppIdentity.eq_def, hdec]
  · rw [signMessage.eq_def, hdec]
  · intro n h; cases h

theorem decode_error_distinct_witness :
    ('0' ∈ String.toList "0a") ∧ b58CharIndex '0' = none ∧
    deriveAppIdentity testPrims "0a" "app" =
      .error CoreError.nonBase58Character ∧
    signMessage testPrims "0a" "msg" =
      .error CoreError.nonBase58Character :=
  ⟨by decide, by decide,
    (decode_error_distinct testPrims "0a" "app" "msg" '0'
      (by decide) (by decide)).1,
    (decode_error_distinct testPrims "0a" "app" "msg" '0'
      (by decide) (by decide)).2.1⟩

/-- Claim C10: `deriveAppIdentity` imposes no precondition on the appId.
For every master key that decodes to 32 bytes, derivation succeeds for
every appId string — including the empty string, for which the HMAC input
is the bare domain prefix `"PhantomMask-v1-app:"` alone — even though the
spec's data model describes the identifier as non-empty. -/
theorem appId_no_precondition (P : CryptoPrims) (mk appId : String)
    (k : List Nat) (hdec : bs58decode mk = some k)
    (hlen : k.length = 32) :
    (deriveAppIdentity P mk appId).isOk = true ∧
    deriveAppIdentity P mk "" =
      .ok { privateKey := bs58encode
              ((P.hmacSha512 k (utf8Bytes DOMAIN_SEPARATOR)).take 32)
            publicKey := bs58encode (P.getPublicKey
              ((P.hmacSha512 k (utf8Bytes DOMAIN_SEPARATOR)).take 32)) } := by
  constructor
  · rw [deriveAppIdentity.eq_def, hdec]
    simp only [hlen, if_true]
    rfl
  · rw [deriveAppIdentity.eq_def, hdec]
    simp only [hlen, if_true]
    have hds : DOMAIN_SEPARATOR ++ "" = DOMAIN_SEPARATOR := rfl
    rw [hds]

theorem appId_no_precondition_witness :
    (deriveAppIdentity testPrims
      "11111111111111111111111111111111" "").isOk = true :=
  (appId_no_precondition testPrims "11111111111111111111111111111111" ""
    (List.replicate 32 0) (by decide) (by decide)).1
